import Mathlib

/-!
Verification of `src/unfulfilled_orders/app.py` against its design
specification.  The Python module is shallowly embedded below: pure
functions become Lean functions on `String`/`List String`/`Nat`; the
network-facing parts (`post_blocks` and the publish loop inside
`post_with_chunking`) are embedded with an explicit environment
`env : Nat → PostOutcome` giving the outcome of the k-th Slack call of
the run, and produce an explicit trace of externally visible events
(message posts and rate-limit sleeps) together with an
`Except PyErr Nat` result that models Python's return-or-raise.
String lengths agree with Python `len` on `str` (both count Unicode
code points).
-/

namespace UnfulfilledOrders

/-- Outcome of one `chat.postMessage` HTTP call, as observed by
`post_blocks`: transport success with `ok: true`, transport success with
an error acknowledgement (payload rendered as a string), or a transport
failure (`raise_for_status`). -/
inductive PostOutcome
  | ok
  | notOk (resp : String)
  | httpErr
deriving DecidableEq, Repr

/-- Python exceptions that escape the embedded code: `RuntimeError msg`
or a `requests` transport error (which is not a `RuntimeError`). -/
inductive PyErr
  | runtime (msg : String)
  | http
deriving DecidableEq, Repr

/-- Externally visible events of a run: one Slack post attempt (optional
header block and the body text), or one `time.sleep(SLEEP_BETWEEN_POSTS)`
pause. -/
inductive Event
  | post (headerBlock : Option String) (bodyText : String)
  | sleep
deriving DecidableEq, Repr

/-- Raw environment as seen by `os.getenv`: `none` models an unset
variable. -/
structure Env where
  SHOP : Option String
  TOKEN : Option String
  SLACK_TOKEN : Option String
  SLACK_CHANNEL : Option String
  API_VER : Option String
  STORE_HANDLE : Option String

/-- Validated module-level configuration, after the startup check. -/
structure Config where
  SHOP : String
  TOKEN : String
  SLACK_TOKEN : String
  SLACK_CHANNEL : String
  API_VER : String
  STORE_HANDLE : Option String

/-- Python truthiness of an `os.getenv` result: falsy iff unset or `""`. -/
def pyTruthy (o : Option String) : Bool := !(o.getD "" == "")

/-- The message of the startup `RuntimeError` raised when a required
variable is missing (module init, `app.py` line 28). -/
def missingMsg : String :=
  "Missing required env vars: SHOPIFY_SHOP, SHOPIFY_ADMIN_TOKEN, SLACK_BOT_TOKEN, SLACK_CHANNEL_ID"

/-- Module initialisation (`app.py` lines 17-28): read the four required
variables, apply defaults for the optional ones, and raise if any
required one is falsy. -/
def moduleInit (e : Env) : Except PyErr Config :=
  if pyTruthy e.SHOP && pyTruthy e.TOKEN && pyTruthy e.SLACK_TOKEN && pyTruthy e.SLACK_CHANNEL then
    Except.ok
      { SHOP := e.SHOP.getD "", TOKEN := e.TOKEN.getD "",
        SLACK_TOKEN := e.SLACK_TOKEN.getD "", SLACK_CHANNEL := e.SLACK_CHANNEL.getD "",
        API_VER := e.API_VER.getD "2025-10", STORE_HANDLE := e.STORE_HANDLE }
  else
    Except.error (PyErr.runtime missingMsg)

/-- The whole process: module init runs before anything in `main`; on a
config error nothing else executes, so no event is emitted whatever the
rest of the program would have done. -/
def program (e : Env) (runM : Config → List Event × Except PyErr Nat) :
    List Event × Except PyErr Nat :=
  match moduleInit e with
  | Except.error err => ([], Except.error err)
  | Except.ok cfg => runM cfg

/-- Python `"\n".join` on a list of strings. -/
def joinNL : List String → String
  | [] => ""
  | [a] => a
  | a :: b :: t => a ++ "\n" ++ joinNL (b :: t)

/-- `MAX_SECTION_CHARS` from `app.py`. -/
def MAX_SECTION_CHARS : Nat := 2900

/-- One iteration of the chunking loop in `post_with_chunking`
(`app.py` lines 160-167).  State is `(parts, cur, cur_len)`. -/
def chunkStep (st : List String × List String × Nat) (line : String) :
    List String × List String × Nat :=
  let add_len := line.length + 1
  if st.2.2 + add_len > MAX_SECTION_CHARS ∧ st.2.1 ≠ [] then
    (st.1 ++ [joinNL st.2.1], [line], line.length + 1)
  else
    (st.1, st.2.1 ++ [line], st.2.2 + add_len)

/-- The flush after the loop (`app.py` lines 168-169). -/
def chunkFin (st : List String × List String × Nat) : List String :=
  if st.2.1 ≠ [] then st.1 ++ [joinNL st.2.1] else st.1

/-- The chunk packer of `post_with_chunking` (`app.py` lines 158-169):
the list `parts` of chunk bodies. -/
def makeParts (lines : List String) : List String :=
  chunkFin (lines.foldl chunkStep ([], [], 0))

/-- Recursive restatement of the packing loop that keeps each chunk as
its list of lines (joined only at the end); proved equal to `makeParts`
in `makeParts_eq`. -/
def greedyAux : List String → Nat → List String → List (List String)
  | cur, _, [] => [cur]
  | cur, curLen, line :: rest =>
    if curLen + (line.length + 1) > MAX_SECTION_CHARS ∧ cur ≠ [] then
      cur :: greedyAux [line] (line.length + 1) rest
    else
      greedyAux (cur ++ [line]) (curLen + (line.length + 1)) rest

/-- The packer at the granularity of line lists. -/
def makeChunks : List String → List (List String)
  | [] => []
  | line :: rest => greedyAux [line] (line.length + 1) rest

/-- Weight of one line inside a chunk: its length plus the one-character
separator the loop accounts for (`add_len = len(line) + 1`). -/
def w (s : String) : Nat := s.length + 1

/-- Weight of a chunk: the `cur_len` the loop maintains for it. -/
def W (c : List String) : Nat := (c.map w).sum

/-- Python `tok in s` on strings: `isLeadOf t l` is the prefix test. -/
def isLeadOf : List Char → List Char → Bool
  | [], _ => true
  | _ :: _, [] => false
  | a :: as, b :: bs => a == b && isLeadOf as bs

/-- Occurrence of `t` as a contiguous run inside the second list. -/
def hasSubList (t : List Char) : List Char → Bool
  | [] => t.isEmpty
  | c :: rest => isLeadOf t (c :: rest) || hasSubList t rest

/-- Python `tok in s` for strings. -/
def strIn (tok s : String) : Bool := hasSubList tok.data s.data

/-- Header of the `idx`-th published chunk (`app.py` line 173):
`header if idx == 0 else f"{header} (cont. {idx})"`. -/
def hdrFor (header : String) (idx : Nat) : String :=
  if idx = 0 then header else header ++ " (cont. " ++ toString idx ++ ")"

/-- The publish loop of `post_with_chunking` (`app.py` lines 171-177):
post each part with its header, count it, and sleep after each post.
`idx` is the enumeration index, `call` the index into the run's Slack
call outcomes, `count` the messages sent so far.  A `notOk`
acknowledgement raises `RuntimeError(f"Slack error: {resp}")`; a
transport failure raises the (non-Runtime) HTTP error. -/
def postLoop (env : Nat → PostOutcome) (header : String) :
    List String → Nat → Nat → Nat → List Event × Except PyErr Nat
  | [], _, _, count => ([], Except.ok count)
  | part :: rest, idx, call, count =>
    match env call with
    | PostOutcome.ok =>
      let r := postLoop env header rest (idx + 1) (call + 1) (count + 1)
      (Event.post (some (hdrFor header idx)) part :: Event.sleep :: r.1, r.2)
    | PostOutcome.notOk resp =>
      ([Event.post (some (hdrFor header idx)) part],
        Except.error (PyErr.runtime ("Slack error: " ++ resp)))
    | PostOutcome.httpErr =>
      ([Event.post (some (hdrFor header idx)) part], Except.error PyErr.http)

/-- `post_with_chunking` (`app.py` lines 140-178).  With no lines it
posts a single header-only message.  Otherwise, when the joined body
fits in `MAX_SECTION_CHARS` it attempts a single post; a `RuntimeError`
whose text contains neither `"msg_too_long"` nor `"invalid_blocks"`
propagates, as does any transport error, while a matching one falls
through to the chunked loop (whose Slack calls then start at index 1). -/
def post_with_chunking (env : Nat → PostOutcome) (header : String) (lines : List String) :
    List Event × Except PyErr Nat :=
  if lines = [] then
    match env 0 with
    | PostOutcome.ok => ([Event.post none header], Except.ok 1)
    | PostOutcome.notOk resp =>
      ([Event.post none header], Except.error (PyErr.runtime ("Slack error: " ++ resp)))
    | PostOutcome.httpErr => ([Event.post none header], Except.error PyErr.http)
  else
    let body := joinNL lines
    if body.length ≤ MAX_SECTION_CHARS then
      match env 0 with
      | PostOutcome.ok => ([Event.post (some header) body], Except.ok 1)
      | PostOutcome.httpErr => ([Event.post (some header) body], Except.error PyErr.http)
      | PostOutcome.notOk resp =>
        if strIn "msg_too_long" ("Slack error: " ++ resp) = false ∧
            strIn "invalid_blocks" ("Slack error: " ++ resp) = false then
          ([Event.post (some header) body],
            Except.error (PyErr.runtime ("Slack error: " ++ resp)))
        else
          let r := postLoop env header (makeParts lines) 0 1 0
          (Event.post (some header) body :: r.1, r.2)
    else
      postLoop env header (makeParts lines) 0 0 0

/-- Trace of a fully successful chunked delivery starting at chunk
index `idx`: each post immediately followed by the rate-limit sleep. -/
def chunkTrace (header : String) : List String → Nat → List Event
  | [], _ => []
  | part :: rest, idx =>
    Event.post (some (hdrFor header idx)) part :: Event.sleep :: chunkTrace header rest (idx + 1)

/-- The post attempts of a trace, keeping their header block and body. -/
def postEvents : List Event → List (Option String × String)
  | [] => []
  | Event.post h b :: rest => (h, b) :: postEvents rest
  | Event.sleep :: rest => postEvents rest

/-- `True` for a sleep event. -/
def isSleep : Event → Bool
  | Event.sleep => true
  | Event.post _ _ => false

/-- A packing of `lines` as the spec describes one: order-preserving
consecutive non-empty chunks whose joined bodies stay within
`MAX_SECTION_CHARS`. -/
def ValidBodyPacking (P : List (List String)) (lines : List String) : Prop :=
  P.flatten = lines ∧ (∀ c ∈ P, c ≠ []) ∧ ∀ c ∈ P, (joinNL c).length ≤ MAX_SECTION_CHARS

/-- A packing within the budget the loop actually enforces: chunk
weight (body length plus one trailing separator) within
`MAX_SECTION_CHARS`, i.e. body length at most `MAX_SECTION_CHARS - 1`. -/
def ValidWeightPacking (P : List (List String)) (lines : List String) : Prop :=
  P.flatten = lines ∧ (∀ c ∈ P, c ≠ []) ∧ ∀ c ∈ P, W c ≤ MAX_SECTION_CHARS

/-- Slack-call environment in which every call succeeds. -/
def envOk : Nat → PostOutcome := fun _ => PostOutcome.ok

/-- Environment whose first call is acknowledged `not ok` with the
size-error token and whose later calls succeed. -/
def envTooLong : Nat → PostOutcome :=
  fun k => if k = 0 then PostOutcome.notOk "msg_too_long" else PostOutcome.ok

/-- A single report line one character longer than the section budget. -/
def lineOversize : String := String.mk (List.replicate 2901 'a')

/-- A 3000-character report line, used to force the chunked path. -/
def lineLong : String := String.mk (List.replicate 3000 'b')

/-- Two lines whose exact join is 2900 characters: 1450 + 1 + 1449. -/
def lineFitA : String := String.mk (List.replicate 1450 'c')

/-- Companion of `lineFitA`. -/
def lineFitB : String := String.mk (List.replicate 1449 'd')

/-- A concrete configuration used to instantiate theorems with
hypotheses. -/
def cfgDemo : Config :=
  { SHOP := "example.myshopify.com", TOKEN := "tok", SLACK_TOKEN := "xoxb",
    SLACK_CHANNEL := "C123", API_VER := "2025-10", STORE_HANDLE := none }

/-- An environment with the shop domain unset, used to instantiate the
startup-validation theorem. -/
def envMissingShop : Env :=
  { SHOP := none, TOKEN := some "tok", SLACK_TOKEN := some "xoxb",
    SLACK_CHANNEL := some "C123", API_VER := none, STORE_HANDLE := none }

/-- `order_url` (`app.py` lines 96-99): Python truthiness of
`STORE_HANDLE` selects the handle-based admin URL. -/
def order_url (cfg : Config) (legacy_id : String) : String :=
  if pyTruthy cfg.STORE_HANDLE then
    "https://admin.shopify.com/store/" ++ cfg.STORE_HANDLE.getD "" ++ "/orders/" ++ legacy_id
  else
    "https://" ++ cfg.SHOP ++ "/admin/orders/" ++ legacy_id

/-- One row of `shopify_fetch_all`'s output. -/
structure Row where
  name : String
  createdAt : String
  financial : String
  fulfillment : String
  legacyId : String
  gid : String

/-- A concrete row used to instantiate theorems with hypotheses. -/
def rowDemo : Row :=
  { name := "#1001", createdAt := "2024-01-15T18:30:00Z", financial := "PAID",
    fulfillment := "UNFULFILLED", legacyId := "123456789", gid := "gid-1" }

/-- Header returned for an empty row list (`app.py` line 105). -/
def noOrdersHeader : String :=
  ":white_check_mark: No unfulfilled orders in the 30d→24h window."

/-- Header returned for a non-empty row list (`app.py` line 106). -/
def reportHeader : String :=
  "*Unfulfilled orders > 24hrs (within last 30 days) — Please Review*"

/-- `build_lines` (`app.py` lines 101-112).  `fmtDt` abstracts
`fmt_dt_iso_to_ct`, whose zoneinfo-based conversion is environment data
outside the embedded arithmetic; no claim depends on its output. -/
def build_lines (cfg : Config) (fmtDt : String → String) (rows : List Row) :
    String × List String :=
  match rows with
  | [] => (noOrdersHeader, [])
  | _ :: _ =>
    (reportHeader,
      rows.map fun r =>
        "• <" ++ order_url cfg r.legacyId ++ "|" ++ r.name ++ "> — " ++ fmtDt r.createdAt ++
          " — Financial: `" ++ r.financial ++ "` — Fulfillment: `" ++ r.fulfillment ++ "`")

/-- Proleptic-Gregorian civil date `(year, month, day)` of a day count
since 1970-01-01, the calendar `datetime` uses in UTC. -/
def civilFromDays (days : Nat) : Nat × Nat × Nat :=
  let z := days + 719468
  let era := z / 146097
  let doe := z % 146097
  let yoe := (doe - doe / 1460 + doe / 36524 - doe / 146096) / 365
  let y := yoe + era * 400
  let doy := doe - (365 * yoe + yoe / 4 - yoe / 100)
  let mp := (5 * doy + 2) / 153
  let d := doy - (153 * mp + 2) / 5 + 1
  let m := if mp < 10 then mp + 3 else mp - 9
  (if m ≤ 2 then y + 1 else y, m, d)

/-- Two-digit zero-padded decimal rendering, as `strftime` emits for
`%m`, `%d`, `%H`, `%M`, `%S` of in-range fields. -/
def pad2 (n : Nat) : List Char := [Nat.digitChar (n / 10 % 10), Nat.digitChar (n % 10)]

/-- Four-digit zero-padded decimal rendering, as `strftime` emits for
`%Y` of years up to 9999. -/
def pad4 (n : Nat) : List Char :=
  [Nat.digitChar (n / 1000 % 10), Nat.digitChar (n / 100 % 10),
   Nat.digitChar (n / 10 % 10), Nat.digitChar (n % 10)]

/-- `strftime("%Y-%m-%dT%H:%M:%SZ")` on the UTC instant `s` seconds
after the epoch. -/
def fmtTS (s : Nat) : String :=
  let c := civilFromDays (s / 86400)
  String.mk
    (pad4 c.1 ++ ['-'] ++ pad2 c.2.1 ++ ['-'] ++ pad2 c.2.2 ++ ['T'] ++
     pad2 (s % 86400 / 3600) ++ [':'] ++ pad2 (s % 3600 / 60) ++ [':'] ++
     pad2 (s % 60) ++ ['Z'])

/-- `lower` (`app.py` line 33): `now - timedelta(days=30)`, formatted. -/
def lower (now : Nat) : String := fmtTS (now - 30 * 86400)

/-- `upper` (`app.py` line 34): `now - timedelta(hours=24)`, formatted. -/
def upper (now : Nat) : String := fmtTS (now - 24 * 3600)

/-- Shape check `YYYY-MM-DDTHH:MM:SS` + `Z`: exactly 20 characters,
digits in the date and time fields, the fixed separators elsewhere. -/
def isoShape (s : String) : Bool :=
  match s.data with
  | [y1, y2, y3, y4, s1, mo1, mo2, s2, d1, d2, t, h1, h2, s3, mi1, mi2, s4, se1, se2, z] =>
    y1.isDigit && y2.isDigit && y3.isDigit && y4.isDigit && s1 == '-' &&
    mo1.isDigit && mo2.isDigit && s2 == '-' && d1.isDigit && d2.isDigit &&
    t == 'T' && h1.isDigit && h2.isDigit && s3 == ':' && mi1.isDigit &&
    mi2.isDigit && s4 == ':' && se1.isDigit && se2.isDigit && z == 'Z'
  | _ => false

theorem greedyAux_flatten (rest : List String) :
    ∀ (cur : List String) (curLen : Nat), (greedyAux cur curLen rest).flatten = cur ++ rest := by
  induction rest with
  | nil => intro cur curLen; simp [greedyAux]
  | cons line rest ih =>
    intro cur curLen
    by_cases h : curLen + (line.length + 1) > MAX_SECTION_CHARS ∧ cur ≠ []
    · simp [greedyAux, h, ih]
    · simp [greedyAux, h, ih]

theorem makeChunks_flatten (lines : List String) : (makeChunks lines).flatten = lines := by
  cases lines with
  | nil => simp [makeChunks]
  | cons line rest => simp [makeChunks, greedyAux_flatten]

theorem greedyAux_ne_nil (rest : List String) :
    ∀ (cur : List String) (curLen : Nat), cur ≠ [] →
      ∀ c ∈ greedyAux cur curLen rest, c ≠ [] := by
  induction rest with
  | nil => intro cur curLen hcur c hc; simp [greedyAux] at hc; simpa [hc] using hcur
  | cons line rest ih =>
    intro cur curLen hcur c hc
    by_cases h : curLen + (line.length + 1) > MAX_SECTION_CHARS ∧ cur ≠ []
    · simp only [greedyAux, if_pos h] at hc
      rcases List.mem_cons.mp hc with h1 | h2
      · simpa [h1] using hcur
      · exact ih [line] (line.length + 1) (by simp) c h2
    · simp only [greedyAux, if_neg h] at hc
      exact ih (cur ++ [line]) (curLen + (line.length + 1)) (by simp) c hc

theorem makeChunks_ne_nil (lines : List String) : ∀ c ∈ makeChunks lines, c ≠ [] := by
  cases lines with
  | nil => simp [makeChunks]
  | cons line rest => exact greedyAux_ne_nil rest [line] (line.length + 1) (by simp)

theorem foldl_chunkStep (rest : List String) :
    ∀ (parts cur : List String) (curLen : Nat), cur ≠ [] →
      chunkFin (rest.foldl chunkStep (parts, cur, curLen)) =
        parts ++ (greedyAux cur curLen rest).map joinNL := by
  induction rest with
  | nil => intro parts cur curLen hcur; simp [chunkFin, greedyAux, hcur]
  | cons line rest ih =>
    intro parts cur curLen hcur
    by_cases h : curLen + (line.length + 1) > MAX_SECTION_CHARS ∧ cur ≠ []
    · have hstep : chunkStep (parts, cur, curLen) line =
          (parts ++ [joinNL cur], [line], line.length + 1) := by
        simp only [chunkStep]; rw [if_pos h]
      rw [List.foldl_cons, hstep, ih (parts ++ [joinNL cur]) [line] (line.length + 1) (by simp)]
      simp only [greedyAux]; rw [if_pos h]
      simp
    · have hstep : chunkStep (parts, cur, curLen) line =
          (parts, cur ++ [line], curLen + (line.length + 1)) := by
        simp only [chunkStep]; rw [if_neg h]
      rw [List.foldl_cons, hstep, ih parts (cur ++ [line]) (curLen + (line.length + 1)) (by simp)]
      simp only [greedyAux]; rw [if_neg h]

theorem makeParts_eq (lines : List String) :
    makeParts lines = (makeChunks lines).map joinNL := by
  cases lines with
  | nil => simp [makeParts, chunkFin, makeChunks]
  | cons line rest =>
    have hstep : chunkStep ([], [], 0) line = ([], [line], 0 + (line.length + 1)) := by
      simp only [chunkStep]
      rw [if_neg (by simp)]
      simp
    have : makeParts (line :: rest) =
        chunkFin (rest.foldl chunkStep ([], [line], 0 + (line.length + 1))) := by
      simp only [makeParts, List.foldl_cons, hstep]
    rw [this, foldl_chunkStep rest [] [line] (0 + (line.length + 1)) (by simp)]
    simp [makeChunks, Nat.zero_add]

/-- `"\n".join` turns concatenation of non-empty lists into joining with
a separator. -/
theorem joinNL_append (a b : List String) (ha : a ≠ []) (hb : b ≠ []) :
    joinNL (a ++ b) = joinNL a ++ "\n" ++ joinNL b := by
  induction a with
  | nil => exact absurd rfl ha
  | cons x a ih =>
    cases a with
    | nil =>
      cases b with
      | nil => exact absurd rfl hb
      | cons y t => simp [joinNL]
    | cons z a2 =>
      have hrec := ih (by simp)
      have hcons : (x :: z :: a2) ++ b = x :: ((z :: a2) ++ b) := by simp
      rw [hcons]
      have hne : (z :: a2) ++ b ≠ [] := by simp
      obtain ⟨w, t, hw⟩ : ∃ w t, (z :: a2) ++ b = w :: t := ⟨z, a2 ++ b, by simp⟩
      rw [hw] at hrec ⊢
      simp only [joinNL]
      rw [hrec]
      simp [String.append_assoc]

theorem flatten_ne_nil (cs : List (List String)) (hne : cs ≠ [])
    (h : ∀ c ∈ cs, c ≠ []) : cs.flatten ≠ [] := by
  cases cs with
  | nil => exact absurd rfl hne
  | cons c t =>
    have hc : c ≠ [] := h c (by simp)
    cases c with
    | nil => exact absurd rfl hc
    | cons x xs => simp

/-- Joining the joined chunks reproduces the join of all lines. -/
theorem joinNL_flatten (cs : List (List String)) (h : ∀ c ∈ cs, c ≠ []) :
    joinNL (cs.map joinNL) = joinNL cs.flatten := by
  induction cs with
  | nil => simp [joinNL]
  | cons c t ih =>
    cases t with
    | nil => simp [joinNL]
    | cons c2 t2 =>
      have hc : c ≠ [] := h c (by simp)
      have ht : ∀ x ∈ c2 :: t2, x ≠ [] := fun x hx => h x (List.mem_cons_of_mem _ hx)
      have htne : (c2 :: t2).flatten ≠ [] := flatten_ne_nil _ (by simp) ht
      have hflat : (c :: c2 :: t2).flatten = c ++ (c2 :: t2).flatten := by simp
      calc joinNL ((c :: c2 :: t2).map joinNL)
          = joinNL c ++ "\n" ++ joinNL ((c2 :: t2).map joinNL) := by
            simp only [List.map_cons, joinNL]
        _ = joinNL c ++ "\n" ++ joinNL (c2 :: t2).flatten := by rw [ih ht]
        _ = joinNL ((c :: c2 :: t2).flatten) := by rw [hflat, joinNL_append c _ hc htne]

/-- C1: for every non-empty list of report lines, the packer of
`post_with_chunking` assigns each line to exactly one chunk, in order:
the chunks concatenate back to the original list, every chunk is
non-empty, and joining the produced chunk bodies with newlines
reproduces the newline-join of all lines (hence no line is split,
dropped or duplicated). -/
theorem chunking_partitions_lines (lines : List String) (hne : lines ≠ []) :
    (makeChunks lines).flatten = lines ∧
    (∀ c ∈ makeChunks lines, c ≠ []) ∧
    joinNL (makeParts lines) = joinNL lines := by
  refine ⟨makeChunks_flatten lines, makeChunks_ne_nil lines, ?_⟩
  rw [makeParts_eq, joinNL_flatten _ (makeChunks_ne_nil lines), makeChunks_flatten]

theorem chunking_partitions_lines_witness :
    (["alpha", "beta"] : List String) ≠ [] ∧
    ((makeChunks ["alpha", "beta"]).flatten = ["alpha", "beta"] ∧
     (∀ c ∈ makeChunks ["alpha", "beta"], c ≠ []) ∧
     joinNL (makeParts ["alpha", "beta"]) = joinNL ["alpha", "beta"]) :=
  ⟨by decide, chunking_partitions_lines ["alpha", "beta"] (by decide)⟩

theorem W_append (a b : List String) : W (a ++ b) = W a + W b := by
  simp [W]

theorem joinNL_length (c : List String) (h : c ≠ []) : (joinNL c).length + 1 = W c := by
  induction c with
  | nil => exact absurd rfl h
  | cons a t ih =>
    cases t with
    | nil => simp [joinNL, W, w]
    | cons b t2 =>
      have hrec := ih (by simp)
      have hn : ("\n" : String).length = 1 := rfl
      have : (a ++ "\n" ++ joinNL (b :: t2)).length =
          a.length + 1 + (joinNL (b :: t2)).length := by
        rw [String.length_append, String.length_append, hn]
      simp only [joinNL, this]
      have hW : W (a :: b :: t2) = w a + W (b :: t2) := by simp [W]
      rw [hW]
      simp only [w]
      omega

theorem greedyAux_W_le (rest : List String) :
    ∀ (cur : List String) (curLen : Nat), curLen = W cur →
      W cur ≤ MAX_SECTION_CHARS + 1 →
      (∀ l ∈ rest, l.length + 1 ≤ MAX_SECTION_CHARS + 1) →
      ∀ c ∈ greedyAux cur curLen rest, W c ≤ MAX_SECTION_CHARS + 1 := by
  induction rest with
  | nil =>
    intro cur curLen _ hbound _ c hc
    simp [greedyAux] at hc
    simpa [hc] using hbound
  | cons line rest ih =>
    intro cur curLen hlen hbound hrest c hc
    by_cases h : curLen + (line.length + 1) > MAX_SECTION_CHARS ∧ cur ≠ []
    · simp only [greedyAux, if_pos h] at hc
      rcases List.mem_cons.mp hc with h1 | h2
      · simpa [h1] using hbound
      · refine ih [line] (line.length + 1) (by simp [W, w]) ?_ ?_ c h2
        · have := hrest line (by simp)
          simpa [W, w] using this
        · intro l hl; exact hrest l (by simp [hl])
    · simp only [greedyAux, if_neg h] at hc
      have hW' : W (cur ++ [line]) = W cur + (line.length + 1) := by simp [W_append, W, w]
      refine ih (cur ++ [line]) (curLen + (line.length + 1)) (by rw [hW', hlen]) ?_
        (fun l hl => hrest l (by simp [hl])) c hc
      rcases not_and_or.mp h with hA | hB
      · have : curLen + (line.length + 1) ≤ MAX_SECTION_CHARS := by omega
        rw [hW', ← hlen]; omega
      · have hcur : cur = [] := not_not.mp hB
        subst hcur
        have := hrest line (by simp)
        simp only [hW']
        simp only [W, List.map_nil, List.sum_nil] at *
        omega

theorem lineOversize_length : lineOversize.length = 2901 := by
  have h : lineOversize.length = (List.replicate 2901 'a').length := rfl
  rw [h, List.length_replicate]

theorem makeParts_single (l : String) : makeParts [l] = [l] := by
  rw [makeParts_eq]
  simp [makeChunks, greedyAux, joinNL]

/-- Entering the chunked path: with a non-empty line list whose joined
body exceeds the budget, `post_with_chunking` is exactly the publish
loop over the packed parts, with Slack calls numbered from 0. -/
theorem post_with_chunking_big (env : Nat → PostOutcome) (header : String)
    (lines : List String) (hne : lines ≠ [])
    (hbig : MAX_SECTION_CHARS < (joinNL lines).length) :
    post_with_chunking env header lines = postLoop env header (makeParts lines) 0 0 0 := by
  simp only [post_with_chunking]
  rw [if_neg hne, if_neg (not_le.mpr hbig)]

/-- With an all-successful environment the publish loop posts every
part, sleeping after each, and returns the final count. -/
theorem postLoop_ok (env : Nat → PostOutcome) (header : String)
    (hok : ∀ k, env k = PostOutcome.ok) :
    ∀ (parts : List String) (idx call count : Nat),
      postLoop env header parts idx call count =
        (chunkTrace header parts idx, Except.ok (count + parts.length)) := by
  intro parts
  induction parts with
  | nil => intro idx call count; simp [postLoop, chunkTrace]
  | cons p rest ih =>
    intro idx call count
    simp only [postLoop, hok]
    rw [ih (idx + 1) (call + 1) (count + 1)]
    simp only [chunkTrace, List.length_cons, Prod.mk.injEq, Except.ok.injEq]
    exact ⟨trivial, by omega⟩

/-- C2 fails as universally stated: on a single 2901-character line the
chunked path posts one message whose body is that line, 2901 > 2900
characters long. -/
theorem chunk_body_can_exceed_max :
    post_with_chunking envOk "H" [lineOversize] =
      ([Event.post (some "H") lineOversize, Event.sleep], Except.ok 1) ∧
    lineOversize.length > MAX_SECTION_CHARS := by
  have hbig : MAX_SECTION_CHARS < (joinNL [lineOversize]).length := by
    simp only [joinNL]
    rw [lineOversize_length]
    decide
  constructor
  · rw [post_with_chunking_big envOk "H" [lineOversize] (by simp) hbig, makeParts_single,
      postLoop_ok envOk "H" (fun _ => rfl) [lineOversize] 0 0 0]
    simp [chunkTrace, hdrFor]
  · rw [lineOversize_length]; decide

/-- C2 amended: provided every individual line is within
`MAX_SECTION_CHARS`, every chunk body the packer produces is within
`MAX_SECTION_CHARS`; a longer line becomes a chunk of its own whose
body exceeds the budget. -/
theorem chunks_within_max (lines : List String) (hne : lines ≠ [])
    (hlines : ∀ l ∈ lines, l.length ≤ MAX_SECTION_CHARS) :
    ∀ part ∈ makeParts lines, part.length ≤ MAX_SECTION_CHARS := by
  rw [makeParts_eq]
  intro part hp
  obtain ⟨c, hc, rfl⟩ := List.mem_map.mp hp
  have hcne : c ≠ [] := makeChunks_ne_nil lines c hc
  have hW : W c ≤ MAX_SECTION_CHARS + 1 := by
    cases lines with
    | nil => exact absurd rfl hne
    | cons line rest =>
      have hchunks : makeChunks (line :: rest) = greedyAux [line] (line.length + 1) rest := rfl
      rw [hchunks] at hc
      refine greedyAux_W_le rest [line] (line.length + 1) (by simp [W, w]) ?_ ?_ c hc
      · have := hlines line (by simp)
        simp [W, w]; omega
      · intro l hl
        have := hlines l (by simp [hl])
        omega
  have := joinNL_length c hcne
  omega

theorem chunks_within_max_witness :
    (["short", "lines"] : List String) ≠ [] ∧
    (∀ l ∈ (["short", "lines"] : List String), l.length ≤ MAX_SECTION_CHARS) ∧
    (∀ part ∈ makeParts ["short", "lines"], part.length ≤ MAX_SECTION_CHARS) :=
  ⟨by decide, by decide, chunks_within_max ["short", "lines"] (by decide) (by decide)⟩

theorem hasSubList_append_right (t l : List Char) (h : hasSubList t l = true) :
    ∀ p : List Char, hasSubList t (p ++ l) = true := by
  intro p
  induction p with
  | nil => simpa using h
  | cons c p ih => simp [hasSubList, ih]

/-- Occurrences of a pattern whose first character never occurs in `p`
cannot start inside `p`. -/
theorem hasSubList_cons_append (t0 : Char) (ts p l : List Char)
    (hp : ∀ c ∈ p, c ≠ t0) :
    hasSubList (t0 :: ts) (p ++ l) = hasSubList (t0 :: ts) l := by
  induction p with
  | nil => rfl
  | cons c p ih =>
    have hc : c ≠ t0 := hp c (by simp)
    have hlead : isLeadOf (t0 :: ts) (c :: (p ++ l)) = false := by
      simp [isLeadOf]
      intro h
      exact absurd h.symm hc
    have : (c :: p) ++ l = c :: (p ++ l) := rfl
    rw [this]
    simp [hasSubList, hlead, ih (fun c h => hp c (by simp [h]))]

theorem strIn_slack_msg_too_long (resp : String) :
    strIn "msg_too_long" ("Slack error: " ++ resp) = strIn "msg_too_long" resp := by
  have hdata : ("Slack error: " ++ resp).data = ("Slack error: ").data ++ resp.data :=
    String.data_append _ _
  have htok : ("msg_too_long").data = 'm' :: ("sg_too_long").data := rfl
  simp only [strIn, hdata, htok]
  exact hasSubList_cons_append 'm' _ _ _ (by decide)

theorem strIn_slack_invalid_blocks (resp : String) :
    strIn "invalid_blocks" ("Slack error: " ++ resp) = strIn "invalid_blocks" resp := by
  have hdata : ("Slack error: " ++ resp).data = ("Slack error: ").data ++ resp.data :=
    String.data_append _ _
  have htok : ("invalid_blocks").data = 'i' :: ("nvalid_blocks").data := rfl
  simp only [strIn, hdata, htok]
  exact hasSubList_cons_append 'i' _ _ _ (by decide)

/-- Single-shot attempt acknowledged `not ok`: the token test on
`str(e)` decides between propagating and falling through to chunking. -/
theorem post_with_chunking_notOk (env : Nat → PostOutcome) (header : String)
    (lines : List String) (resp : String) (hne : lines ≠ [])
    (hfits : (joinNL lines).length ≤ MAX_SECTION_CHARS)
    (h0 : env 0 = PostOutcome.notOk resp) :
    post_with_chunking env header lines =
      if strIn "msg_too_long" ("Slack error: " ++ resp) = false ∧
          strIn "invalid_blocks" ("Slack error: " ++ resp) = false then
        ([Event.post (some header) (joinNL lines)],
          Except.error (PyErr.runtime ("Slack error: " ++ resp)))
      else
        (Event.post (some header) (joinNL lines) ::
            (postLoop env header (makeParts lines) 0 1 0).1,
          (postLoop env header (makeParts lines) 0 1 0).2) := by
  simp only [post_with_chunking]
  rw [if_neg hne, if_pos hfits, h0]

/-- C3: on the single-shot attempt (non-empty lines, body within the
budget), a `not ok` acknowledgement whose payload carries
`"msg_too_long"` or `"invalid_blocks"` is swallowed and the run
proceeds to chunked delivery (Slack calls numbered from 1); a `not ok`
acknowledgement carrying neither token propagates as the
`RuntimeError`, and a transport failure propagates as the HTTP error,
both immediately after the single post attempt. -/
theorem single_shot_error_handling (env : Nat → PostOutcome) (header : String)
    (lines : List String) (resp : String) (hne : lines ≠ [])
    (hfits : (joinNL lines).length ≤ MAX_SECTION_CHARS) :
    (env 0 = PostOutcome.notOk resp →
      (strIn "msg_too_long" resp || strIn "invalid_blocks" resp) = true →
      post_with_chunking env header lines =
        (Event.post (some header) (joinNL lines) ::
            (postLoop env header (makeParts lines) 0 1 0).1,
          (postLoop env header (makeParts lines) 0 1 0).2)) ∧
    (env 0 = PostOutcome.notOk resp →
      strIn "msg_too_long" resp = false → strIn "invalid_blocks" resp = false →
      post_with_chunking env header lines =
        ([Event.post (some header) (joinNL lines)],
          Except.error (PyErr.runtime ("Slack error: " ++ resp)))) ∧
    (env 0 = PostOutcome.httpErr →
      post_with_chunking env header lines =
        ([Event.post (some header) (joinNL lines)], Except.error PyErr.http)) := by
  refine ⟨?_, ?_, ?_⟩
  · intro h0 htok
    rw [post_with_chunking_notOk env header lines resp hne hfits h0]
    have hcond : ¬(strIn "msg_too_long" ("Slack error: " ++ resp) = false ∧
        strIn "invalid_blocks" ("Slack error: " ++ resp) = false) := by
      rw [strIn_slack_msg_too_long, strIn_slack_invalid_blocks]
      rcases Bool.or_eq_true_iff.mp htok with h | h <;> simp [h]
    rw [if_neg hcond]
  · intro h0 h1 h2
    rw [post_with_chunking_notOk env header lines resp hne hfits h0]
    have hcond : strIn "msg_too_long" ("Slack error: " ++ resp) = false ∧
        strIn "invalid_blocks" ("Slack error: " ++ resp) = false := by
      rw [strIn_slack_msg_too_long, strIn_slack_invalid_blocks]
      exact ⟨h1, h2⟩
    rw [if_pos hcond]
  · intro h0
    simp only [post_with_chunking]
    rw [if_neg hne, if_pos hfits, h0]

theorem single_shot_error_handling_witness :
    (["x", "y"] : List String) ≠ [] ∧ (joinNL ["x", "y"]).length ≤ MAX_SECTION_CHARS ∧
    ((envTooLong 0 = PostOutcome.notOk "msg_too_long" →
      (strIn "msg_too_long" "msg_too_long" || strIn "invalid_blocks" "msg_too_long") = true →
      post_with_chunking envTooLong "H" ["x", "y"] =
        (Event.post (some "H") (joinNL ["x", "y"]) ::
            (postLoop envTooLong "H" (makeParts ["x", "y"]) 0 1 0).1,
          (postLoop envTooLong "H" (makeParts ["x", "y"]) 0 1 0).2)) ∧
    (envTooLong 0 = PostOutcome.notOk "msg_too_long" →
      strIn "msg_too_long" "msg_too_long" = false → strIn "invalid_blocks" "msg_too_long" = false →
      post_with_chunking envTooLong "H" ["x", "y"] =
        ([Event.post (some "H") (joinNL ["x", "y"])],
          Except.error (PyErr.runtime ("Slack error: " ++ "msg_too_long")))) ∧
    (envTooLong 0 = PostOutcome.httpErr →
      post_with_chunking envTooLong "H" ["x", "y"] =
        ([Event.post (some "H") (joinNL ["x", "y"])], Except.error PyErr.http))) :=
  ⟨by decide, by decide,
    single_shot_error_handling envTooLong "H" ["x", "y"] "msg_too_long" (by decide) (by decide)⟩

theorem lineLong_length : lineLong.length = 3000 := by
  have h : lineLong.length = (List.replicate 3000 'b').length := rfl
  rw [h, List.length_replicate]

theorem postEvents_chunkTrace (header : String) :
    ∀ (parts : List String) (idx k : Nat),
      (postEvents (chunkTrace header parts idx))[k]? =
        (parts[k]?).map fun p => (some (hdrFor header (idx + k)), p) := by
  intro parts
  induction parts with
  | nil => intro idx k; simp [chunkTrace, postEvents]
  | cons p rest ih =>
    intro idx k
    cases k with
    | zero => simp [chunkTrace, postEvents]
    | succ k =>
      have harith : idx + 1 + k = idx + (k + 1) := by omega
      simp only [chunkTrace, postEvents, List.getElem?_cons_succ]
      rw [ih (idx + 1) k, harith]

theorem postEvents_chunkTrace_length (header : String) :
    ∀ (parts : List String) (idx : Nat),
      (postEvents (chunkTrace header parts idx)).length = parts.length := by
  intro parts
  induction parts with
  | nil => intro idx; simp [chunkTrace, postEvents]
  | cons p rest ih => intro idx; simp [chunkTrace, postEvents, ih (idx + 1)]

/-- C4: with every call succeeding and a body too large for one
message, the published messages follow the packed parts in order; the
first carries the plain header and the `k`-th (k ≥ 1) carries the
header suffixed with " (cont. k)", the index increasing in publish
order. -/
theorem chunk_headers_sequential (env : Nat → PostOutcome) (header : String)
    (lines : List String) (hne : lines ≠ [])
    (hbig : MAX_SECTION_CHARS < (joinNL lines).length)
    (hok : ∀ k, env k = PostOutcome.ok) :
    (postEvents (post_with_chunking env header lines).1).length = (makeParts lines).length ∧
    (postEvents (post_with_chunking env header lines).1)[0]? =
      ((makeParts lines)[0]?).map (fun p => (some header, p)) ∧
    ∀ k, 1 ≤ k →
      (postEvents (post_with_chunking env header lines).1)[k]? =
        ((makeParts lines)[k]?).map
          (fun p => (some (header ++ " (cont. " ++ Nat.repr k ++ ")"), p)) := by
  have htr : (post_with_chunking env header lines).1 = chunkTrace header (makeParts lines) 0 := by
    rw [post_with_chunking_big env header lines hne hbig,
      postLoop_ok env header hok (makeParts lines) 0 0 0]
  refine ⟨?_, ?_, ?_⟩
  · rw [htr, postEvents_chunkTrace_length]
  · rw [htr, postEvents_chunkTrace header (makeParts lines) 0 0]
    have : hdrFor header (0 + 0) = header := by simp [hdrFor]
    rw [this]
  · intro k hk
    rw [htr, postEvents_chunkTrace header (makeParts lines) 0 k]
    have : hdrFor header (0 + k) = header ++ " (cont. " ++ Nat.repr k ++ ")" := by
      have hk0 : ¬(0 + k = 0) := by omega
      simp only [hdrFor, if_neg hk0]
      have : 0 + k = k := by omega
      rw [this]
      rfl
    rw [this]

theorem chunk_headers_sequential_witness :
    ([lineLong, lineLong] : List String) ≠ [] ∧
    MAX_SECTION_CHARS < (joinNL [lineLong, lineLong]).length ∧
    (postEvents (post_with_chunking envOk "H" [lineLong, lineLong]).1)[1]? =
      ((makeParts [lineLong, lineLong])[1]?).map
        (fun p => (some ("H" ++ " (cont. " ++ Nat.repr 1 ++ ")"), p)) := by
  have hne : ([lineLong, lineLong] : List String) ≠ [] := by simp
  have hbig : MAX_SECTION_CHARS < (joinNL [lineLong, lineLong]).length := by
    have hW : (joinNL [lineLong, lineLong]).length + 1 = W [lineLong, lineLong] :=
      joinNL_length _ (by simp)
    have : W [lineLong, lineLong] = 6002 := by simp [W, w, lineLong_length]
    simp only [MAX_SECTION_CHARS]
    omega
  exact ⟨hne, hbig,
    (chunk_headers_sequential envOk "H" [lineLong, lineLong] hne hbig (fun _ => rfl)).2.2 1 le_rfl⟩

/-- C6 fails as stated: the loop sleeps after every post, including the
last.  On one chunk the trace is a post followed by a sleep, so a pause
does occur after the final publish. -/
theorem pause_after_last_publish :
    (post_with_chunking envOk "H" [lineLong]).1 =
      [Event.post (some "H") lineLong, Event.sleep] ∧
    ((post_with_chunking envOk "H" [lineLong]).1).getLast? = some Event.sleep := by
  have hbig : MAX_SECTION_CHARS < (joinNL [lineLong]).length := by
    simp only [joinNL]
    rw [lineLong_length]
    decide
  have htr : (post_with_chunking envOk "H" [lineLong]).1 =
      [Event.post (some "H") lineLong, Event.sleep] := by
    rw [post_with_chunking_big envOk "H" [lineLong] (by simp) hbig, makeParts_single,
      postLoop_ok envOk "H" (fun _ => rfl) [lineLong] 0 0 0]
    simp [chunkTrace, hdrFor]
  exact ⟨htr, by rw [htr]; rfl⟩

theorem chunkTrace_countP_sleep (header : String) :
    ∀ (parts : List String) (idx : Nat),
      (chunkTrace header parts idx).countP (fun e => isSleep e) = parts.length := by
  intro parts
  induction parts with
  | nil => intro idx; simp [chunkTrace]
  | cons p rest ih =>
    intro idx
    have h1 : isSleep (Event.post (some (hdrFor header idx)) p) = false := rfl
    have h2 : isSleep Event.sleep = true := rfl
    simp [chunkTrace, List.countP_cons, h1, h2, ih (idx + 1)]

theorem chunkTrace_countP_post (header : String) :
    ∀ (parts : List String) (idx : Nat),
      (chunkTrace header parts idx).countP (fun e => !isSleep e) = parts.length := by
  intro parts
  induction parts with
  | nil => intro idx; simp [chunkTrace]
  | cons p rest ih =>
    intro idx
    have h1 : isSleep (Event.post (some (hdrFor header idx)) p) = false := rfl
    have h2 : isSleep Event.sleep = true := rfl
    simp [chunkTrace, List.countP_cons, h1, h2, ih (idx + 1)]

theorem chunkTrace_getLast? (header : String) :
    ∀ (parts : List String) (idx : Nat), parts ≠ [] →
      (chunkTrace header parts idx).getLast? = some Event.sleep := by
  intro parts
  induction parts with
  | nil => intro idx h; exact absurd rfl h
  | cons p rest ih =>
    intro idx _
    cases rest with
    | nil => rfl
    | cons q rest2 =>
      have hrec := ih (idx + 1) (by simp)
      have hchunk : chunkTrace header (p :: q :: rest2) idx =
          Event.post (some (hdrFor header idx)) p :: Event.sleep ::
            chunkTrace header (q :: rest2) (idx + 1) := rfl
      rw [hchunk, List.getLast?_cons_cons]
      have : chunkTrace header (q :: rest2) (idx + 1) =
          Event.post (some (hdrFor header (idx + 1))) q :: Event.sleep ::
            chunkTrace header rest2 (idx + 2) := rfl
      rw [← hrec]
      rw [this, List.getLast?_cons_cons]

/-- C6 amended: a fixed pause follows every publish of the chunked
loop, including the last one; no pause precedes the first publish.
With every call succeeding, the trace is exactly post-then-sleep per
part (so sleeps and posts are equinumerous, the trace starts with a
post, and it ends with a sleep). -/
theorem pause_follows_each_publish (env : Nat → PostOutcome) (header : String)
    (parts : List String) (idx call count : Nat)
    (hok : ∀ k, env k = PostOutcome.ok) :
    (postLoop env header parts idx call count).1 = chunkTrace header parts idx ∧
    ((postLoop env header parts idx call count).1).countP (fun e => isSleep e) = parts.length ∧
    ((postLoop env header parts idx call count).1).countP (fun e => !isSleep e) = parts.length ∧
    (parts ≠ [] →
      ((postLoop env header parts idx call count).1).head? =
        some (Event.post (some (hdrFor header idx)) (parts.headI)) ∧
      ((postLoop env header parts idx call count).1).getLast? = some Event.sleep) := by
  have htr : (postLoop env header parts idx call count).1 = chunkTrace header parts idx := by
    rw [postLoop_ok env header hok parts idx call count]
  refine ⟨htr, ?_, ?_, ?_⟩
  · rw [htr, chunkTrace_countP_sleep]
  · rw [htr, chunkTrace_countP_post]
  · intro hne
    constructor
    · rw [htr]
      cases parts with
      | nil => exact absurd rfl hne
      | cons p rest => rfl
    · rw [htr]
      exact chunkTrace_getLast? header parts idx hne

theorem pause_follows_each_publish_witness :
    (∀ k, envOk k = PostOutcome.ok) ∧
    ((postLoop envOk "H" ["p", "q"] 0 0 0).1 = chunkTrace "H" ["p", "q"] 0 ∧
    ((postLoop envOk "H" ["p", "q"] 0 0 0).1).countP (fun e => isSleep e) = (["p", "q"] : List String).length ∧
    ((postLoop envOk "H" ["p", "q"] 0 0 0).1).countP (fun e => !isSleep e) = (["p", "q"] : List String).length ∧
    ((["p", "q"] : List String) ≠ [] →
      ((postLoop envOk "H" ["p", "q"] 0 0 0).1).head? =
        some (Event.post (some (hdrFor "H" 0)) ((["p", "q"] : List String).headI)) ∧
      ((postLoop envOk "H" ["p", "q"] 0 0 0).1).getLast? = some Event.sleep)) :=
  ⟨fun _ => rfl, pause_follows_each_publish envOk "H" ["p", "q"] 0 0 0 (fun _ => rfl)⟩

/-- C7: with no orders, `build_lines` returns the fixed success header
and no lines, and `post_with_chunking` (its publish succeeding) posts
exactly one message whose only block is that header and returns 1. -/
theorem empty_orders_single_message (cfg : Config) (fmtDt : String → String)
    (env : Nat → PostOutcome) (h0 : env 0 = PostOutcome.ok) :
    build_lines cfg fmtDt [] = (noOrdersHeader, []) ∧
    post_with_chunking env noOrdersHeader [] =
      ([Event.post none noOrdersHeader], Except.ok 1) := by
  refine ⟨rfl, ?_⟩
  simp only [post_with_chunking]
  rw [if_pos trivial, h0]

theorem empty_orders_single_message_witness :
    envOk 0 = PostOutcome.ok ∧
    (build_lines cfgDemo (fun ts => ts) [] = (noOrdersHeader, []) ∧
    post_with_chunking envOk noOrdersHeader [] =
      ([Event.post none noOrdersHeader], Except.ok 1)) :=
  ⟨rfl, empty_orders_single_message cfgDemo (fun ts => ts) envOk rfl⟩

/-- C9: when any of the four required settings is unset or empty, the
module-level check fails before anything else runs: the whole program
produces no event at all (whatever `main` would have done) and aborts
with the `RuntimeError` whose message names every required variable,
in particular each missing one. -/
theorem missing_config_aborts (e : Env) (runM : Config → List Event × Except PyErr Nat)
    (hmiss : pyTruthy e.SHOP = false ∨ pyTruthy e.TOKEN = false ∨
      pyTruthy e.SLACK_TOKEN = false ∨ pyTruthy e.SLACK_CHANNEL = false) :
    program e runM = ([], Except.error (PyErr.runtime missingMsg)) ∧
    strIn "SHOPIFY_SHOP" missingMsg = true ∧
    strIn "SHOPIFY_ADMIN_TOKEN" missingMsg = true ∧
    strIn "SLACK_BOT_TOKEN" missingMsg = true ∧
    strIn "SLACK_CHANNEL_ID" missingMsg = true := by
  have hcond : ¬((pyTruthy e.SHOP && pyTruthy e.TOKEN && pyTruthy e.SLACK_TOKEN &&
      pyTruthy e.SLACK_CHANNEL) = true) := by
    rcases hmiss with h | h | h | h <;> simp [h]
  have hinit : moduleInit e = Except.error (PyErr.runtime missingMsg) := by
    simp only [moduleInit]
    rw [if_neg hcond]
  refine ⟨?_, by decide, by decide, by decide, by decide⟩
  simp only [program, hinit]

theorem missing_config_aborts_witness :
    (pyTruthy envMissingShop.SHOP = false ∨ pyTruthy envMissingShop.TOKEN = false ∨
      pyTruthy envMissingShop.SLACK_TOKEN = false ∨
      pyTruthy envMissingShop.SLACK_CHANNEL = false) ∧
    (program envMissingShop (fun _ => ([], Except.ok 0)) =
      ([], Except.error (PyErr.runtime missingMsg)) ∧
    strIn "SHOPIFY_SHOP" missingMsg = true ∧
    strIn "SHOPIFY_ADMIN_TOKEN" missingMsg = true ∧
    strIn "SLACK_BOT_TOKEN" missingMsg = true ∧
    strIn "SLACK_CHANNEL_ID" missingMsg = true) :=
  ⟨Or.inl rfl, missing_config_aborts envMissingShop (fun _ => ([], Except.ok 0)) (Or.inl rfl)⟩

theorem data_mk (L : List Char) : (String.mk L).data = L := rfl

theorem digitChar_mod10_isDigit (n : Nat) : (Nat.digitChar (n % 10)).isDigit = true := by
  have h : n % 10 < 10 := Nat.mod_lt _ (by norm_num)
  revert h
  generalize n % 10 = m
  intro h
  interval_cases m <;> rfl

/-- Every formatted timestamp has the `YYYY-MM-DDTHH:MM:SS` + `Z`
shape with zero-padded all-digit fields. -/
theorem isoShape_fmtTS (s : Nat) : isoShape (fmtTS s) = true := by
  simp only [fmtTS]
  rw [isoShape]
  simp [pad2, pad4, data_mk, digitChar_mod10_isDigit]

/-- C8: for every fixed current instant (as whole seconds since the
Unix epoch, at least 30 days in and within the four-digit-year range
where the embedding of `strftime` is exact), `lower` is exactly the
instant minus 30 days and `upper` exactly the instant minus 24 hours,
each rendered as a zero-padded UTC ISO string `YYYY-MM-DDTHH:MM:SS`
with a trailing `Z`. -/
theorem window_bounds (now : Nat) (hlo : 2592000 ≤ now) (hhi : now ≤ 253402300800) :
    lower now = fmtTS (now - 30 * 86400) ∧
    upper now = fmtTS (now - 24 * 3600) ∧
    isoShape (lower now) = true ∧
    isoShape (upper now) = true :=
  ⟨rfl, rfl, isoShape_fmtTS _, isoShape_fmtTS _⟩

theorem window_bounds_witness :
    2592000 ≤ 1700000000 ∧ 1700000000 ≤ 253402300800 ∧
    (lower 1700000000 = fmtTS (1700000000 - 30 * 86400) ∧
    upper 1700000000 = fmtTS (1700000000 - 24 * 3600) ∧
    isoShape (lower 1700000000) = true ∧
    isoShape (upper 1700000000) = true) :=
  ⟨by norm_num, by norm_num, window_bounds 1700000000 (by norm_num) (by norm_num)⟩

theorem length_pos_of_ne_empty (s : String) (h : s ≠ "") : 1 ≤ s.length := by
  cases s with
  | mk data =>
    cases data with
    | nil => exact absurd rfl h
    | cons c cs =>
      have hl : (String.mk (c :: cs)).length = (c :: cs).length := rfl
      rw [hl]
      simp

theorem greedyAux_result_ne_nil (rest : List String) :
    ∀ (cur : List String) (curLen : Nat), greedyAux cur curLen rest ≠ [] := by
  induction rest with
  | nil => intro cur curLen; simp [greedyAux]
  | cons line rest ih =>
    intro cur curLen
    by_cases h : curLen + (line.length + 1) > MAX_SECTION_CHARS ∧ cur ≠ []
    · simp [greedyAux, h]
    · simp only [greedyAux, if_neg h]
      exact ih (cur ++ [line]) (curLen + (line.length + 1))

theorem chunk_member_of_line (lines : List String) (c : List String) (x : String)
    (hc : c ∈ makeChunks lines) (hx : x ∈ c) : x ∈ lines := by
  rw [← makeChunks_flatten lines]
  exact List.mem_flatten.mpr ⟨c, hc, hx⟩

theorem report_line_ne_empty (cfg : Config) (fmtDt : String → String) (r : Row) :
    ("• <" ++ order_url cfg r.legacyId ++ "|" ++ r.name ++ "> — " ++ fmtDt r.createdAt ++
      " — Financial: `" ++ r.financial ++ "` — Fulfillment: `" ++ r.fulfillment ++ "`") ≠ "" := by
  intro h
  have hlen := congrArg String.length h
  simp only [String.length_append] at hlen
  have h3 : ("• <" : String).length = 3 := rfl
  have h0 : ("" : String).length = 0 := rfl
  rw [h3, h0] at hlen
  omega

theorem makeParts_member_ne_empty (lines : List String)
    (hlines : ∀ l ∈ lines, l ≠ "") :
    ∀ part ∈ makeParts lines, part ≠ "" := by
  rw [makeParts_eq]
  intro part hp
  obtain ⟨c, hc, rfl⟩ := List.mem_map.mp hp
  have hcne : c ≠ [] := makeChunks_ne_nil lines c hc
  obtain ⟨x, rest, rfl⟩ : ∃ x rest, c = x :: rest := by
    cases c with
    | nil => exact absurd rfl hcne
    | cons x rest => exact ⟨x, rest, rfl⟩
  have hxlen : 1 ≤ x.length :=
    length_pos_of_ne_empty x (hlines x (chunk_member_of_line lines _ x hc (by simp)))
  have hW : (joinNL (x :: rest)).length + 1 = W (x :: rest) := joinNL_length _ (by simp)
  have hwx : W (x :: rest) = (x.length + 1) + W rest := by simp [W, w]
  intro hempty
  have h0 := congrArg String.length hempty
  have hz : ("" : String).length = 0 := rfl
  rw [hz] at h0
  omega

/-- C10: lines built from a non-empty order list always produce at
least one chunk, every chunk holds at least one line, every chunk body
is a non-empty string, and a fully successful publish loop over those
parts returns their count, which is at least 1. -/
theorem chunked_messages_nonempty (cfg : Config) (fmtDt : String → String)
    (rows : List Row) (hrows : rows ≠ []) (env : Nat → PostOutcome) (header : String)
    (call : Nat) (hok : ∀ k, env k = PostOutcome.ok) :
    makeParts (build_lines cfg fmtDt rows).2 ≠ [] ∧
    (∀ c ∈ makeChunks (build_lines cfg fmtDt rows).2, c ≠ []) ∧
    (∀ part ∈ makeParts (build_lines cfg fmtDt rows).2, part ≠ "") ∧
    (postLoop env header (makeParts (build_lines cfg fmtDt rows).2) 0 call 0).2 =
      Except.ok ((makeParts (build_lines cfg fmtDt rows).2).length) ∧
    1 ≤ (makeParts (build_lines cfg fmtDt rows).2).length := by
  obtain ⟨r, rows', rfl⟩ : ∃ r rows', rows = r :: rows' := by
    cases rows with
    | nil => exact absurd rfl hrows
    | cons r rows' => exact ⟨r, rows', rfl⟩
  have hlines : (build_lines cfg fmtDt (r :: rows')).2 =
      (r :: rows').map (fun r =>
        "• <" ++ order_url cfg r.legacyId ++ "|" ++ r.name ++ "> — " ++ fmtDt r.createdAt ++
          " — Financial: `" ++ r.financial ++ "` — Fulfillment: `" ++ r.fulfillment ++ "`") := rfl
  have hne : (build_lines cfg fmtDt (r :: rows')).2 ≠ [] := by rw [hlines]; simp
  have hlne : ∀ l ∈ (build_lines cfg fmtDt (r :: rows')).2, l ≠ "" := by
    rw [hlines]
    intro l hl
    obtain ⟨r', _, rfl⟩ := List.mem_map.mp hl
    exact report_line_ne_empty cfg fmtDt r'
  have hpartsne : makeParts (build_lines cfg fmtDt (r :: rows')).2 ≠ [] := by
    rw [makeParts_eq]
    obtain ⟨l, ls, hcons⟩ : ∃ l ls, (build_lines cfg fmtDt (r :: rows')).2 = l :: ls := by
      cases hmatch : (build_lines cfg fmtDt (r :: rows')).2 with
      | nil => exact absurd hmatch hne
      | cons l ls => exact ⟨l, ls, rfl⟩
    rw [hcons]
    have : makeChunks (l :: ls) = greedyAux [l] (l.length + 1) ls := rfl
    rw [this]
    have := greedyAux_result_ne_nil ls [l] (l.length + 1)
    simpa using this
  refine ⟨hpartsne, makeChunks_ne_nil _, makeParts_member_ne_empty _ hlne, ?_, ?_⟩
  · rw [postLoop_ok env header hok _ 0 call 0]
    simp
  · have := List.length_pos.mpr hpartsne
    omega

theorem chunked_messages_nonempty_witness :
    ([rowDemo] : List Row) ≠ [] ∧ (∀ k, envOk k = PostOutcome.ok) ∧
    (makeParts (build_lines cfgDemo (fun ts => ts) [rowDemo]).2 ≠ [] ∧
    (∀ c ∈ makeChunks (build_lines cfgDemo (fun ts => ts) [rowDemo]).2, c ≠ []) ∧
    (∀ part ∈ makeParts (build_lines cfgDemo (fun ts => ts) [rowDemo]).2, part ≠ "") ∧
    (postLoop envOk "H" (makeParts (build_lines cfgDemo (fun ts => ts) [rowDemo]).2) 0 0 0).2 =
      Except.ok ((makeParts (build_lines cfgDemo (fun ts => ts) [rowDemo]).2).length) ∧
    1 ≤ (makeParts (build_lines cfgDemo (fun ts => ts) [rowDemo]).2).length) :=
  ⟨by simp, fun _ => rfl,
    chunked_messages_nonempty cfgDemo (fun ts => ts) [rowDemo] (by simp) envOk "H" 0 (fun _ => rfl)⟩

theorem lineFitA_length : lineFitA.length = 1450 := by
  have h : lineFitA.length = (List.replicate 1450 'c').length := rfl
  rw [h, List.length_replicate]

theorem lineFitB_length : lineFitB.length = 1449 := by
  have h : lineFitB.length = (List.replicate 1449 'd').length := rfl
  rw [h, List.length_replicate]

theorem makeChunks_fit_pair : makeChunks [lineFitA, lineFitB] = [[lineFitA], [lineFitB]] := by
  have h1 : makeChunks [lineFitA, lineFitB] =
      greedyAux [lineFitA] (lineFitA.length + 1) [lineFitB] := rfl
  rw [h1, lineFitA_length]
  simp only [greedyAux]
  rw [if_pos ⟨by rw [lineFitB_length]; norm_num [MAX_SECTION_CHARS], by simp⟩]

/-- C5 fails as stated: the loop reserves one separator character past
each candidate line, so on two lines of 1450 and 1449 characters it
produces two chunks although the single-chunk packing has body
1450 + 1 + 1449 = 2900 = MAX_SECTION_CHARS, within the stated size
ceiling. -/
theorem greedy_not_minimal :
    ValidBodyPacking [[lineFitA, lineFitB]] [lineFitA, lineFitB] ∧
    (makeParts [lineFitA, lineFitB]).length = 2 ∧
    ([[lineFitA, lineFitB]] : List (List String)).length <
      (makeParts [lineFitA, lineFitB]).length := by
  have hlen2 : (makeParts [lineFitA, lineFitB]).length = 2 := by
    rw [makeParts_eq, makeChunks_fit_pair]
    rfl
  refine ⟨⟨by simp, by simp, ?_⟩, hlen2, by rw [hlen2]; simp⟩
  intro c hc
  have hc' : c = [lineFitA, lineFitB] := by simpa using hc
  subst hc'
  have hn : ("\n" : String).length = 1 := rfl
  have hj : joinNL [lineFitA, lineFitB] = lineFitA ++ "\n" ++ lineFitB := rfl
  rw [hj, String.length_append, String.length_append, hn, lineFitA_length, lineFitB_length]
  norm_num [MAX_SECTION_CHARS]

/-- The first chunk the loop closes is the longest prefix that fits
the weight budget; the rest of the output is the loop restarted on the
remaining lines. -/
theorem greedyAux_first (rest : List String) :
    ∀ (cur : List String) (curLen : Nat), cur ≠ [] → curLen = W cur →
      ∃ n, n ≤ rest.length ∧
        greedyAux cur curLen rest = (cur ++ rest.take n) :: makeChunks (rest.drop n) ∧
        ∀ k, k ≤ rest.length → W cur + W (rest.take k) ≤ MAX_SECTION_CHARS → k ≤ n := by
  induction rest with
  | nil =>
    intro cur curLen hcur hlen
    refine ⟨0, by simp, by simp [greedyAux, makeChunks], ?_⟩
    intro k hk _
    simpa using hk
  | cons line rest ih =>
    intro cur curLen hcur hlen
    by_cases h : curLen + (line.length + 1) > MAX_SECTION_CHARS ∧ cur ≠ []
    · refine ⟨0, by simp, ?_, ?_⟩
      · simp only [greedyAux, if_pos h]
        simp [makeChunks]
      · intro k hk hWk
        by_contra hcon
        obtain ⟨k', rfl⟩ : ∃ k', k = k' + 1 := ⟨k - 1, by omega⟩
        have htake : (line :: rest).take (k' + 1) = line :: rest.take k' := rfl
        rw [htake] at hWk
        have hsplit : W (line :: rest.take k') = (line.length + 1) + W (rest.take k') := by
          simp [W, w]
        rw [hsplit] at hWk
        rw [hlen] at h
        have := h.1
        omega
    · have hA : ¬(curLen + (line.length + 1) > MAX_SECTION_CHARS) := fun hgt => h ⟨hgt, hcur⟩
      have hcur' : cur ++ [line] ≠ [] := by simp
      have hlen' : curLen + (line.length + 1) = W (cur ++ [line]) := by
        rw [W_append, hlen]
        simp [W, w]
      obtain ⟨n', hn'le, heq, hmax⟩ := ih (cur ++ [line]) (curLen + (line.length + 1)) hcur' hlen'
      refine ⟨n' + 1, by simp [Nat.succ_le_succ hn'le], ?_, ?_⟩
      · simp only [greedyAux, if_neg h]
        rw [heq]
        have h1 : (line :: rest).take (n' + 1) = line :: rest.take n' := rfl
        have h2 : (line :: rest).drop (n' + 1) = rest.drop n' := rfl
        rw [h1, h2]
        simp
      · intro k hk hWk
        cases k with
        | zero => omega
        | succ k' =>
          have htake : (line :: rest).take (k' + 1) = line :: rest.take k' := rfl
          rw [htake] at hWk
          have hsplit : W (line :: rest.take k') = (line.length + 1) + W (rest.take k') := by
            simp [W, w]
          rw [hsplit] at hWk
          have hWk' : W (cur ++ [line]) + W (rest.take k') ≤ MAX_SECTION_CHARS := by
            rw [W_append]
            have hwl : W [line] = line.length + 1 := by simp [W, w]
            rw [hwl]
            omega
          have hk' : k' ≤ rest.length := by
            have : k' + 1 ≤ rest.length + 1 := by simpa using hk
            omega
          have := hmax k' hk' hWk'
          omega

/-- Greedy minimality over any suffix: a packing of `S` into chunks of
weight at most the budget has at least as many chunks as the loop
produces on any suffix of `S`. -/
theorem greedy_min_aux :
    ∀ (P : List (List String)) (S R : List String),
      P.flatten = S → (∀ c ∈ P, c ≠ []) → (∀ c ∈ P, W c ≤ MAX_SECTION_CHARS) →
      R <:+ S → (makeChunks R).length ≤ P.length := by
  intro P
  induction P with
  | nil =>
    intro S R hflat _ _ hsuf
    have hS : S = [] := by simpa using hflat.symm
    subst hS
    have hR : R = [] := List.suffix_nil.mp hsuf
    simp [hR, makeChunks]
  | cons p ps ih =>
    intro S R hflat hne hWp hsuf
    have hS : S = p ++ ps.flatten := by rw [← hflat]; simp
    subst hS
    rcases List.suffix_or_suffix_of_suffix hsuf (List.suffix_append p ps.flatten) with
      hcase | hcase
    · have := ih ps.flatten R rfl (fun c hc => hne c (by simp [hc]))
        (fun c hc => hWp c (by simp [hc])) hcase
      simp only [List.length_cons]
      omega
    · obtain ⟨r, hr⟩ := hcase
      obtain ⟨t, ht⟩ := hsuf
      have hrp : r <:+ p := by
        refine ⟨t, ?_⟩
        have : t ++ r ++ ps.flatten = p ++ ps.flatten := by
          rw [List.append_assoc, hr, ht]
        exact List.append_cancel_right this
      cases hrcases : r with
      | nil =>
        have hR : R = ps.flatten := by rw [← hr, hrcases]; simp
        have := ih ps.flatten R rfl (fun c hc => hne c (by simp [hc]))
          (fun c hc => hWp c (by simp [hc])) (hR ▸ List.suffix_refl _)
        simp only [List.length_cons]
        omega
      | cons a r' =>
        subst hrcases
        have hRform : R = a :: (r' ++ ps.flatten) := by rw [← hr]; simp
        have hmc : makeChunks R = greedyAux [a] (a.length + 1) (r' ++ ps.flatten) := by
          rw [hRform]; rfl
        obtain ⟨n, hnle, heq, hmax⟩ :=
          greedyAux_first (r' ++ ps.flatten) [a] (a.length + 1) (by simp) (by simp [W, w])
        have hWr : W [a] + W ((r' ++ ps.flatten).take r'.length) ≤ MAX_SECTION_CHARS := by
          rw [List.take_left]
          have hWa : W [a] + W r' = W (a :: r') := by simp [W, w]
          rw [hWa]
          have hWrp : W (a :: r') ≤ W p := by
            obtain ⟨t', ht'⟩ := hrp
            rw [← ht', W_append]
            omega
          have := hWp p (by simp)
          omega
        have hrn : r'.length ≤ n := hmax r'.length (by simp) hWr
        have hdrop : (r' ++ ps.flatten).drop n = ps.flatten.drop (n - r'.length) := by
          have hn' : n = r'.length + (n - r'.length) := by omega
          rw [hn']
          simp [List.drop_append]
        have hsuf' : ps.flatten.drop (n - r'.length) <:+ ps.flatten :=
          List.drop_suffix _ _
        have hrec := ih ps.flatten (ps.flatten.drop (n - r'.length)) rfl
          (fun c hc => hne c (by simp [hc])) (fun c hc => hWp c (by simp [hc])) hsuf'
        rw [hmc, heq, hdrop]
        simp only [List.length_cons]
        omega

/-- C5 amended: the chunk count is minimal among order-preserving
packings that respect the budget the loop actually enforces — chunk
weight (body length plus one trailing separator per line) at most
`MAX_SECTION_CHARS`, i.e. body length at most `MAX_SECTION_CHARS - 1`.
A packing with a body of exactly `MAX_SECTION_CHARS` characters can
beat the loop, which reserves one character for a trailing
separator. -/
theorem greedy_chunk_count_minimal (lines : List String) (P : List (List String))
    (hP : ValidWeightPacking P lines) :
    (makeParts lines).length ≤ P.length := by
  rw [makeParts_eq, List.length_map]
  exact greedy_min_aux P lines lines hP.1 hP.2.1 hP.2.2 (List.suffix_refl lines)

theorem greedy_chunk_count_minimal_witness :
    ValidWeightPacking [["a"], ["b"]] ["a", "b"] ∧
    (makeParts ["a", "b"]).length ≤ ([["a"], ["b"]] : List (List String)).length :=
  ⟨⟨by decide, by decide, by decide⟩,
    greedy_chunk_count_minimal ["a", "b"] [["a"], ["b"]] ⟨by decide, by decide, by decide⟩⟩

end UnfulfilledOrders
